import Mathlib

/-!
# Verification of the corona-dashboard forecasting pipeline

Shallow embedding of the forecasting core of the `JobCollins/dashboards`
repository: monotonicity repair of cumulative series, LOWESS-based trend
smoothing, parameter-bounds estimation for the generalized logistic model,
forecast reconstruction, and the CFR-based secondary (deaths) model.

Series are embedded as `List ℚ` (the source works on `float64`/`int64`
pandas Series; rational arithmetic models the exact real semantics, and a
separate small IEEE-style value type `PValue` models NaN/inf propagation
where the source's behaviour on division by zero matters).  The LOWESS
regression itself is an external library call (`statsmodels`); its output
is taken as an explicit argument of the functions that consume it, so every
theorem quantifies over all possible smoother outputs.
-/

/-- Round half to even (the rounding used by numpy/pandas `round(0)`),
as a function `ℚ → ℤ`. -/
def roundHalfEven (q : ℚ) : ℤ :=
  if q - ⌊q⌋ < 1/2 then ⌊q⌋
  else if 1/2 < q - ⌊q⌋ then ⌊q⌋ + 1
  else if Even ⌊q⌋ then ⌊q⌋ else ⌊q⌋ + 1

/-- Running sums with accumulator: `cumsumGo a [x₁, x₂, …] = [a+x₁, a+x₁+x₂, …]`. -/
def cumsumGo (acc : ℚ) : List ℚ → List ℚ
  | [] => []
  | x :: xs => (acc + x) :: cumsumGo (acc + x) xs

/-- `Series.cumsum()` on a list of rationals. -/
def cumsum (l : List ℚ) : List ℚ := cumsumGo 0 l

/-- Running sums over `ℤ` (for integer-valued forecast deltas). -/
def cumsumZGo (acc : ℤ) : List ℤ → List ℤ
  | [] => []
  | x :: xs => (acc + x) :: cumsumZGo (acc + x) xs

/-- `Series.cumsum()` on a list of integers. -/
def cumsumZ (l : List ℤ) : List ℤ := cumsumZGo 0 l

/-!
## §4.1 SeriesRepairer — `fix_bad_data`

Source (notebook 05, `src/unnamed/part_000`, lines 838–839):
```
mask = world_deaths < world_deaths.cummax()
world_deaths_fixed = world_deaths.mask(mask).interpolate().round(0).astype('int64')
```
A value is masked exactly when it is strictly below the running maximum of
the values before it (the inclusive `cummax` makes the comparison with the
current value itself always false).  `interpolate()` (pandas linear method)
fills each run of missing values evenly between its two valid neighbours
and fills a trailing run with the last valid value; the first value is
never missing because it always equals its own running maximum.
-/

/-- `s.mask(s < s.cummax())` on the tail of the series, carrying the running
maximum `m` of all preceding values: an entry `x` becomes `none` iff `x < m`. -/
def maskGo (m : ℚ) : List ℚ → List (Option ℚ)
  | [] => []
  | x :: xs => (if x < m then none else some x) :: maskGo (max m x) xs

/-- The `g` evenly spaced values pandas linear interpolation places between
valid neighbours `a` and `b`: entry `i` is `a + (b - a)·(i+1)/(g+1)`. -/
def interpSeg (a b : ℚ) (g : ℕ) : List ℚ :=
  (List.range g).map (fun (i : ℕ) => a + (b - a) * ((i : ℚ) + 1) / ((g : ℚ) + 1))

/-- Pandas linear `interpolate()` after a valid value `a`, with `gap` pending
missing entries: a run of missing entries between valid neighbours is filled
by `interpSeg`; a trailing run is filled with the last valid value. -/
def interpGo (a : ℚ) (gap : ℕ) : List (Option ℚ) → List ℚ
  | [] => List.replicate gap a
  | none :: rest => interpGo a (gap + 1) rest
  | some b :: rest => interpSeg a b gap ++ b :: interpGo b 0 rest

/-- `fix_bad_data` (notebook 05): mask every value strictly below the running
maximum, linearly interpolate the masked entries, round to the nearest
integer.  Input and output are integer cumulative series (`int64`). -/
def fix_bad_data (s : List ℤ) : List ℤ :=
  match s.map (fun (z : ℤ) => (z : ℚ)) with
  | [] => []
  | x :: xs => (x :: interpGo x 0 (maskGo x xs)).map roundHalfEven

example : fix_bad_data [5, 3] = [5, 5] := by
  norm_num [fix_bad_data, maskGo, interpGo, interpSeg, roundHalfEven]
example : fix_bad_data [0, 3, 2, 1, 5] = [0, 3, 4, 4, 5] := by
  norm_num [fix_bad_data, maskGo, interpGo, interpSeg, roundHalfEven, List.range_succ]
example : fix_bad_data [2, 0, 3] = [2, 2, 3] := by
  norm_num [fix_bad_data, maskGo, interpGo, interpSeg, roundHalfEven, List.range_succ]

/-!
### Lemmas about the repair
-/

theorem roundHalfEven_intCast (z : ℤ) : roundHalfEven (z : ℚ) = z := by
  unfold roundHalfEven
  simp

theorem roundHalfEven_ge_floor (q : ℚ) : ⌊q⌋ ≤ roundHalfEven q := by
  unfold roundHalfEven
  split_ifs <;> omega

theorem roundHalfEven_le_floor_add_one (q : ℚ) : roundHalfEven q ≤ ⌊q⌋ + 1 := by
  unfold roundHalfEven
  split_ifs <;> omega

theorem roundHalfEven_mono {x y : ℚ} (h : x ≤ y) :
    roundHalfEven x ≤ roundHalfEven y := by
  rcases lt_or_eq_of_le (Int.floor_le_floor h) with hf | hf
  · have h1 := roundHalfEven_le_floor_add_one x
    have h2 := roundHalfEven_ge_floor y
    omega
  · have hr : x - (⌊x⌋ : ℚ) ≤ y - (⌊y⌋ : ℚ) := by
      rw [← hf]; linarith
    unfold roundHalfEven
    rw [hf]
    split_ifs <;> first | omega | (exfalso; rw [hf] at hr; linarith)

/-- Each interpolated value lies between the two anchors. -/
theorem interpSeg_mem_bounds {a b : ℚ} (hab : a ≤ b) (g : ℕ) :
    ∀ y ∈ interpSeg a b g, a ≤ y ∧ y ≤ b := by
  intro y hy
  unfold interpSeg at hy
  rw [List.mem_map] at hy
  obtain ⟨i, hi, rfl⟩ := hy
  rw [List.mem_range] at hi
  have hd : (0 : ℚ) < (g : ℚ) + 1 := by positivity
  have hnum : (0 : ℚ) ≤ (b - a) * ((i : ℚ) + 1) := by
    have : (0 : ℚ) ≤ (i : ℚ) + 1 := by positivity
    nlinarith
  constructor
  · nlinarith [div_nonneg hnum hd.le]
  · have hle : ((i : ℚ) + 1) ≤ ((g : ℚ) + 1) := by
      have : (i : ℚ) + 1 ≤ (g : ℚ) := by exact_mod_cast hi
      linarith
    have h1 : (b - a) * ((i : ℚ) + 1) / ((g : ℚ) + 1) ≤
        (b - a) * ((g : ℚ) + 1) / ((g : ℚ) + 1) := by
      gcongr
      linarith
    have h2 : (b - a) * ((g : ℚ) + 1) / ((g : ℚ) + 1) = b - a := by
      field_simp
    linarith

/-- Values of an interpolated run are ordered: the chain
`a :: interpSeg a b g` is nondecreasing whenever `a ≤ b`. -/
theorem interpSeg_chain {a b : ℚ} (hab : a ≤ b) (g : ℕ) :
    List.Chain' (· ≤ ·) (a :: interpSeg a b g) := by
  rw [List.chain'_cons']
  constructor
  · intro y hy
    have := interpSeg_mem_bounds hab g y (List.mem_of_mem_head? hy)
    exact this.1
  · unfold interpSeg
    rw [List.chain'_map]
    cases g with
    | zero => simp
    | succ k =>
        rw [List.chain'_range_succ]
        intro m _
        have hd : (0 : ℚ) < ((Nat.succ k : ℚ) + 1) := by positivity
        gcongr
        · linarith
        · linarith

/-- The last element of `a :: interpSeg a b g` is at most `b`. -/
theorem interpSeg_getLast_le {a b : ℚ} (hab : a ≤ b) (g : ℕ) :
    ∀ y ∈ (a :: interpSeg a b g).getLast?, y ≤ b := by
  intro y hy
  have hmem : y ∈ a :: interpSeg a b g := List.mem_of_mem_getLast? hy
  rcases List.mem_cons.mp hmem with rfl | hmem
  · exact hab
  · exact (interpSeg_mem_bounds hab g y hmem).2

/-- The valid (unmasked) entries of a masked series, read left to right,
are bounded below by `a` and nondecreasing. -/
def validChain (a : ℚ) : List (Option ℚ) → Prop
  | [] => True
  | none :: rest => validChain a rest
  | some b :: rest => a ≤ b ∧ validChain b rest

/-- Masking against a running maximum produces a `validChain`: every kept
value is a new running maximum, so kept values are nondecreasing and at
least any lower bound of the running maximum. -/
theorem maskGo_validChain : ∀ (xs : List ℚ) {a m : ℚ}, a ≤ m →
    validChain a (maskGo m xs) := by
  intro xs
  induction xs with
  | nil => intro a m _; simp [maskGo, validChain]
  | cons x xs ih =>
      intro a m ham
      by_cases hx : x < m
      · simp only [maskGo, if_pos hx, validChain]
        exact ih (le_trans ham (le_max_left m x))
      · simp only [maskGo, if_neg hx, validChain]
        exact ⟨le_trans ham (not_lt.mp hx), ih (le_max_right m x)⟩

theorem chain'_cons_replicate (a : ℚ) (g : ℕ) :
    List.Chain' (· ≤ ·) (a :: List.replicate g a) := by
  induction g with
  | zero => simp
  | succ k ih => exact List.Chain'.cons le_rfl ih

/-- The interpolation of a masked tail whose valid entries form a
`validChain` above `a` yields a nondecreasing series. -/
theorem interpGo_chain : ∀ (rest : List (Option ℚ)) (a : ℚ) (gap : ℕ),
    validChain a rest → List.Chain' (· ≤ ·) (a :: interpGo a gap rest) := by
  intro rest
  induction rest with
  | nil => intro a gap _; exact chain'_cons_replicate a gap
  | cons o rest ih =>
      intro a gap h
      cases o with
      | none => exact ih a (gap + 1) h
      | some b =>
          obtain ⟨hab, hrest⟩ := h
          show List.Chain' (· ≤ ·) (a :: (interpSeg a b gap ++ b :: interpGo b 0 rest))
          rw [← List.cons_append]
          rw [List.chain'_append]
          refine ⟨interpSeg_chain hab gap, ih b 0 hrest, ?_⟩
          intro x hx y hy
          rw [List.head?_cons, Option.mem_def, Option.some.injEq] at hy
          rw [← hy]
          exact interpSeg_getLast_le hab gap x hx

/-- The last valid value of a masked series (with fallback `a` when no
entry is valid): this is the value pandas interpolation leaves in the last
position. -/
def lastValid (a : ℚ) : List (Option ℚ) → ℚ
  | [] => a
  | none :: rest => lastValid a rest
  | some b :: rest => lastValid b rest

theorem getLast?_cons_replicate (a : ℚ) (g : ℕ) :
    (a :: List.replicate g a).getLast? = some a := by
  induction g with
  | zero => rfl
  | succ k ih =>
      rw [List.replicate_succ]
      rw [List.getLast?_cons_cons]
      exact ih

/-- The last element of the interpolated series is the last valid value. -/
theorem interpGo_getLast? : ∀ (rest : List (Option ℚ)) (a : ℚ) (gap : ℕ),
    (a :: interpGo a gap rest).getLast? = some (lastValid a rest) := by
  intro rest
  induction rest with
  | nil => intro a gap; exact getLast?_cons_replicate a gap
  | cons o rest ih =>
      intro a gap
      cases o with
      | none => exact ih a (gap + 1)
      | some b =>
          show (a :: (interpSeg a b gap ++ b :: interpGo b 0 rest)).getLast? = _
          rw [← List.cons_append, List.getLast?_append_cons]
          exact ih b 0

/-- If the final entry of `xs` is an inclusive maximum, masking keeps it,
and it is the last valid value. -/
theorem lastValid_maskGo : ∀ (xs : List ℚ) {z : ℚ} (a m : ℚ),
    xs.getLast? = some z → (∀ y ∈ xs, y ≤ z) → m ≤ z →
    lastValid a (maskGo m xs) = z := by
  intro xs
  induction xs with
  | nil => intro z a m h; simp at h
  | cons x xs ih =>
      intro z a m hlast hbound hm
      cases xs with
      | nil =>
          simp only [List.getLast?_singleton, Option.some.injEq] at hlast
          subst hlast
          have : ¬ x < m := not_lt.mpr hm
          simp [maskGo, if_neg this, lastValid]
      | cons x' xs' =>
          rw [List.getLast?_cons_cons] at hlast
          have hx : x ≤ z := hbound x (List.mem_cons_self x _)
          have hbound' : ∀ y ∈ x' :: xs', y ≤ z := fun y hy =>
            hbound y (List.mem_cons_of_mem x hy)
          have hmax : max m x ≤ z := max_le hm hx
          by_cases hxm : x < m
          · simp only [maskGo, if_pos hxm, lastValid]
            exact ih a (max m x) hlast hbound' hmax
          · simp only [maskGo, if_neg hxm, lastValid]
            exact ih x (max m x) hlast hbound' hmax

theorem getLast?_map {α β : Type} (f : α → β) (l : List α) :
    (l.map f).getLast? = l.getLast?.map f := by
  induction l with
  | nil => rfl
  | cons z zs ih =>
      cases zs with
      | nil => rfl
      | cons w ws =>
          rw [List.map_cons, List.map_cons, List.getLast?_cons_cons,
            List.getLast?_cons_cons, ← List.map_cons]
          exact ih

theorem getLastD_of_getLast? {α : Type} {l : List α} {a : α} (d : α)
    (h : l.getLast? = some a) : l.getLastD d = a := by
  rw [List.getLastD_eq_getLast?, h]
  rfl

/-!
### C1 — the repair theorems

The claim as stated is false: when the input's final value is itself
strictly below the running maximum, it is masked away, and pandas
interpolation fills the trailing gap with the last valid value, so the
repaired series ends higher than the input series (e.g. `[5, 3] ↦ [5, 5]`).
Monotonicity always holds, and the final value is preserved exactly when
the input's final value is at least every preceding value. -/

/-- **C1 (counterexample)**: for the input series `[5, 3]` the repair yields
`[5, 5]`, whose last value `5` differs from the input's last value `3`. -/
theorem C1_counterexample :
    (fix_bad_data [5, 3]).getLastD 0 = 5 ∧ ([5, 3] : List ℤ).getLastD 0 = 3 ∧
      (5 : ℤ) ≠ 3 := by
  refine ⟨?_, by decide, by decide⟩
  norm_num [fix_bad_data, maskGo, interpGo, interpSeg, roundHalfEven]

/-- **C1 (amended)**: for every input cumulative series, the repaired series
produced by `fix_bad_data` (mask values strictly below the running maximum,
linearly interpolate, round) is monotonically non-decreasing; and whenever
the input's last value is at least every preceding value (i.e. the final
point is not itself flagged invalid), the repaired series' last value equals
the input series' last value. -/
theorem C1_repair_monotone_and_last (s : List ℤ) :
    List.Chain' (· ≤ ·) (fix_bad_data s) ∧
    ((∀ y ∈ s, y ≤ s.getLastD 0) → (fix_bad_data s).getLastD 0 = s.getLastD 0) := by
  cases s with
  | nil => exact ⟨by simp [fix_bad_data], fun _ => by simp [fix_bad_data]⟩
  | cons z zs =>
      have hfix : fix_bad_data (z :: zs) =
          (((z : ℚ)) :: interpGo (z : ℚ) 0
            (maskGo (z : ℚ) (zs.map (fun (w : ℤ) => (w : ℚ))))).map roundHalfEven := rfl
      constructor
      · rw [hfix, List.chain'_map]
        exact (interpGo_chain _ _ 0 (maskGo_validChain _ le_rfl)).imp
          (fun a b hab => roundHalfEven_mono hab)
      · intro hmax
        cases zs with
        | nil =>
            simp [fix_bad_data, maskGo, interpGo, roundHalfEven_intCast]
        | cons w ws =>
            obtain ⟨zl, hzl⟩ : ∃ zl, (w :: ws).getLast? = some zl := by
              cases h : (w :: ws).getLast? with
              | none => exact absurd (List.getLast?_eq_none_iff.mp h) (by simp)
              | some a => exact ⟨a, rfl⟩
            have hslast : (z :: w :: ws).getLast? = some zl := by
              rw [List.getLast?_cons_cons]; exact hzl
            have hsD : (z :: w :: ws).getLastD 0 = zl := getLastD_of_getLast? 0 hslast
            rw [hsD] at hmax ⊢
            -- the ℚ images
            have hxs : ((w :: ws).map (fun (v : ℤ) => (v : ℚ))).getLast? =
                some ((zl : ℚ)) := by
              rw [getLast?_map, hzl]; rfl
            have hbq : ∀ y ∈ (w :: ws).map (fun (v : ℤ) => (v : ℚ)), y ≤ (zl : ℚ) := by
              intro y hy
              rw [List.mem_map] at hy
              obtain ⟨v, hv, rfl⟩ := hy
              exact_mod_cast hmax v (List.mem_cons_of_mem z hv)
            have hzq : ((z : ℚ)) ≤ (zl : ℚ) := by
              exact_mod_cast hmax z (List.mem_cons_self z _)
            have hlv : lastValid (z : ℚ) (maskGo (z : ℚ)
                ((w :: ws).map (fun (v : ℤ) => (v : ℚ)))) = (zl : ℚ) :=
              lastValid_maskGo _ _ _ hxs hbq hzq
            have hgl : (((z : ℚ)) :: interpGo (z : ℚ) 0
                (maskGo (z : ℚ) ((w :: ws).map (fun (v : ℤ) => (v : ℚ))))).getLast? =
                some ((zl : ℚ)) := by
              rw [interpGo_getLast?, hlv]
            rw [hfix]
            have : ((((z : ℚ)) :: interpGo (z : ℚ) 0
                (maskGo (z : ℚ) ((w :: ws).map (fun (v : ℤ) => (v : ℚ))))).map
                  roundHalfEven).getLast? = some (roundHalfEven ((zl : ℚ))) := by
              rw [getLast?_map, hgl]; rfl
            rw [getLastD_of_getLast? 0 this, roundHalfEven_intCast]

/-- **C1 (witness)**: the amended theorem applied to the series `[5, 3, 7]`,
whose final value `7` dominates all preceding values. -/
theorem C1_witness :
    List.Chain' (· ≤ ·) (fix_bad_data [5, 3, 7]) ∧
      (fix_bad_data [5, 3, 7]).getLastD 0 = ([5, 3, 7] : List ℤ).getLastD 0 :=
  ⟨(C1_repair_monotone_and_last [5, 3, 7]).1,
   (C1_repair_monotone_and_last [5, 3, 7]).2 (by decide)⟩

/-!
## A small IEEE-754-style value model

`float64` values as used by the pipeline where division by zero matters:
a value is NaN, +inf, −inf, or a finite number (modelled as a rational).
Only the operations the embedded code performs are defined, with the
IEEE-754 semantics numpy/pandas follow for them.
-/

/-- A `float64` value: NaN, +inf, −inf or finite. -/
inductive PValue : Type
  | nan : PValue
  | inf : PValue
  | ninf : PValue
  | fin (q : ℚ) : PValue
deriving DecidableEq

namespace PValue

/-- IEEE addition for the cases that arise (NaN absorbs; opposite
infinities give NaN). -/
def padd : PValue → PValue → PValue
  | nan, _ => nan
  | _, nan => nan
  | inf, inf => inf
  | inf, ninf => nan
  | inf, fin _ => inf
  | ninf, inf => nan
  | ninf, ninf => ninf
  | ninf, fin _ => ninf
  | fin _, inf => inf
  | fin _, ninf => ninf
  | fin a, fin b => fin (a + b)

/-- IEEE negation. -/
def pneg : PValue → PValue
  | nan => nan
  | inf => ninf
  | ninf => inf
  | fin a => fin (-a)

/-- IEEE subtraction. -/
def psub (a b : PValue) : PValue := padd a (pneg b)

/-- IEEE multiplication (NaN absorbs; `inf * 0 = NaN`). -/
def pmul : PValue → PValue → PValue
  | nan, _ => nan
  | _, nan => nan
  | inf, inf => inf
  | inf, ninf => ninf
  | inf, fin b => if b = 0 then nan else if 0 < b then inf else ninf
  | ninf, inf => ninf
  | ninf, ninf => inf
  | ninf, fin b => if b = 0 then nan else if 0 < b then ninf else inf
  | fin a, inf => if a = 0 then nan else if 0 < a then inf else ninf
  | fin a, ninf => if a = 0 then nan else if 0 < a then ninf else inf
  | fin a, fin b => fin (a * b)

/-- IEEE division (`0/0 = NaN`, `x/0 = ±inf` for `x ≠ 0`, `inf/inf = NaN`). -/
def pdiv : PValue → PValue → PValue
  | nan, _ => nan
  | _, nan => nan
  | inf, inf => nan
  | inf, ninf => nan
  | ninf, inf => nan
  | ninf, ninf => nan
  | inf, fin b => if 0 ≤ b then inf else ninf
  | ninf, fin b => if 0 ≤ b then ninf else inf
  | fin _, inf => fin 0
  | fin _, ninf => fin 0
  | fin a, fin b =>
      if b = 0 then (if a = 0 then nan else if 0 < a then inf else ninf)
      else fin (a / b)

/-- Natural-number power by repeated multiplication (numpy `**` with an
integer exponent; `x ** 0 = 1` even for NaN). -/
def ppow (v : PValue) : ℕ → PValue
  | 0 => fin 1
  | n + 1 => pmul (ppow v n) v

/-- `np.isnan`. -/
def pisnan : PValue → Bool
  | nan => true
  | _ => false

end PValue

/-- `Series.fillna(d)` on one value: replaces NaN (and only NaN) by `d`. -/
def fillna (d : ℚ) : PValue → PValue
  | PValue.nan => PValue.fin d
  | v => v

/-!
## §4.6 ratio estimation — `DeathsModel.calculate_cfr`

Source (notebook 08, `DeathsModel.calculate_cfr`):
```
deaths_total = deaths.loc[self.last_date] - deaths.loc[first_day_deaths]
cases_total = cases.loc[last_day_cases] - cases.loc[first_day_cases]
cfr[group] = (deaths_total / cases_total).fillna(0.01)
```
Embedded per area: the four window-boundary values are the inputs; the
division follows IEEE semantics and `fillna` replaces only NaN.
-/

/-- Per-area body of `DeathsModel.calculate_cfr`: the deaths total over the
trailing `period` window divided by the cases total over the `lag`-shifted
window, with NaN replaced by the fallback constant `0.01`. -/
def DeathsModel_calculate_cfr_area
    (deaths_last deaths_first cases_last cases_first : ℚ) : PValue :=
  fillna (1/100)
    (PValue.pdiv (PValue.fin (deaths_last - deaths_first))
      (PValue.fin (cases_last - cases_first)))

/-!
## §4.3 BoundsEstimator — `get_L_limits`, float semantics

Sources: notebook 07 `get_L_limits` (with the `np.isnan` collapse) and
notebook 08 `CasesModel.get_L_limits` (same arithmetic, no collapse):
```
last_val = s[-1]
last_pct = s.pct_change()[-1] + 1
L_min = last_val * last_pct ** n1
L_max = last_val * last_pct ** n2 + 1
L0 = (L_max - L_min) / 2 + L_min
```
notebook 07 only: `if np.isnan(L_min): L_min, L_max, L0 = 0, 1, 0`.
-/

/-- `s.pct_change()[-1] + 1` with IEEE semantics: `(s[-1] - s[-2]) / s[-2] + 1`
(NaN when the last two values are both zero, ±inf when only `s[-2]` is zero). -/
def lastPct (s : List ℚ) : PValue :=
  PValue.padd
    (PValue.pdiv (PValue.fin (s.getLastD 0 - s.dropLast.getLastD 0))
      (PValue.fin (s.dropLast.getLastD 0)))
    (PValue.fin 1)

/-- `L_min = last_val * last_pct ** n1` with IEEE semantics. -/
def L_min_float (n1 : ℕ) (s : List ℚ) : PValue :=
  PValue.pmul (PValue.fin (s.getLastD 0)) (PValue.ppow (lastPct s) n1)

/-- `L_max = last_val * last_pct ** n2 + 1` with IEEE semantics. -/
def L_max_float (n2 : ℕ) (s : List ℚ) : PValue :=
  PValue.padd (PValue.pmul (PValue.fin (s.getLastD 0)) (PValue.ppow (lastPct s) n2))
    (PValue.fin 1)

/-- `L0 = (L_max - L_min) / 2 + L_min` with IEEE semantics. -/
def L0_float (n1 n2 : ℕ) (s : List ℚ) : PValue :=
  PValue.padd
    (PValue.pdiv (PValue.psub (L_max_float n2 s) (L_min_float n1 s)) (PValue.fin 2))
    (L_min_float n1 s)

/-- `get_L_limits` as defined in notebook 07, including the
`np.isnan(L_min)` collapse to `(0, 1, 0)`. -/
def get_L_limits_nb07 (n1 n2 : ℕ) (s : List ℚ) : PValue × PValue × PValue :=
  if (L_min_float n1 s).pisnan then (PValue.fin 0, PValue.fin 1, PValue.fin 0)
  else (L_min_float n1 s, L_max_float n2 s, L0_float n1 n2 s)

/-- `CasesModel.get_L_limits` as defined in notebook 08: identical
arithmetic but WITHOUT the NaN collapse. -/
def CasesModel_get_L_limits_float (n1 n2 : ℕ) (s : List ℚ) :
    PValue × PValue × PValue :=
  (L_min_float n1 s, L_max_float n2 s, L0_float n1 n2 s)

theorem pmul_nan (x : PValue) : PValue.pmul x PValue.nan = PValue.nan := by
  cases x <;> rfl

theorem ppow_nan {n : ℕ} (h : 0 < n) :
    PValue.ppow PValue.nan n = PValue.nan := by
  cases n with
  | zero => exact absurd h (lt_irrefl 0)
  | succ k => exact pmul_nan _

/-!
### C3 — the ratio fallback

The notebook's own text states "A CFR of 0.005 is used for countries that
have no cases in the last 30 days" (and the class version uses 0.01), but
`fillna` only replaces NaN.  When the cases window total is zero and the
deaths window total is positive, the IEEE division yields +inf, which
`fillna` does not touch: the produced ratio is infinite, contradicting both
the claim and the code's own documentation.  The fallback is reached only
when the deaths total is also zero (0/0 = NaN).
-/

/-- **C3 (code bug)**: an area with 5 deaths in the deaths window and zero
cases in the lagged cases window receives a CFR of +inf, not the fallback
constant `0.01`: `fillna` catches NaN (0/0) but not inf (x/0). -/
theorem C3_cfr_inf_on_zero_cases :
    DeathsModel_calculate_cfr_area 5 0 7 7 = PValue.inf ∧
      PValue.inf ≠ PValue.fin (1/100) ∧
      DeathsModel_calculate_cfr_area 0 0 7 7 = PValue.fin (1/100) := by
  refine ⟨?_, by simp, ?_⟩
  · norm_num [DeathsModel_calculate_cfr_area, PValue.pdiv, fillna]
  · norm_num [DeathsModel_calculate_cfr_area, PValue.pdiv, fillna]

/-!
### C4 — the degenerate-growth collapse

Notebook 07's standalone `get_L_limits` collapses the L bounds to `[0, 1]`
with `L0 = 0` when `L_min` is NaN.  The rewritten method
`CasesModel.get_L_limits` in notebook 08 drops that check and returns NaN
bounds unchanged, so the claim fails for the class used by the pipeline.
-/

/-- **C4 (counterexample)**: on a smoothed series ending `…, 0, 0` the
growth ratio is `0/0` = NaN, and `CasesModel.get_L_limits` (notebook 08)
returns NaN for all three of `L_min, L_max, L0` instead of collapsing to
`(0, 1, 0)`. -/
theorem C4_counterexample :
    CasesModel_get_L_limits_float 5 50 [0, 0] =
      (PValue.nan, PValue.nan, PValue.nan) ∧
      PValue.nan ≠ PValue.fin 0 := by
  have hpct : lastPct [0, 0] = PValue.nan := by
    norm_num [lastPct, PValue.pdiv, PValue.padd]
  have hmin : L_min_float 5 [0, 0] = PValue.nan := by
    rw [L_min_float, hpct, ppow_nan (by norm_num), pmul_nan]
  have hmax : L_max_float 50 [0, 0] = PValue.nan := by
    rw [L_max_float, hpct, ppow_nan (by norm_num), pmul_nan]
    rfl
  have h0 : L0_float 5 50 [0, 0] = PValue.nan := by
    rw [L0_float, hmin, hmax]
    rfl
  refine ⟨?_, by simp⟩
  rw [CasesModel_get_L_limits_float, hmin, hmax, h0]

/-- **C4 (amended)**: the standalone bounds estimator of notebook 07 does
collapse: whenever `L_min` is NaN (undefined growth), `get_L_limits`
returns L bounds `[0, 1]` with initial guess `L0 = 0`. -/
theorem C4_nb07_collapse (n1 n2 : ℕ) (s : List ℚ)
    (h : (L_min_float n1 s).pisnan = true) :
    get_L_limits_nb07 n1 n2 s = (PValue.fin 0, PValue.fin 1, PValue.fin 0) := by
  rw [get_L_limits_nb07, h]
  rfl

/-- **C4 (witness)**: the collapse fires on the concrete series `[0, 0]`. -/
theorem C4_witness :
    (L_min_float 5 [0, 0]).pisnan = true ∧
      get_L_limits_nb07 5 50 [0, 0] = (PValue.fin 0, PValue.fin 1, PValue.fin 0) := by
  have hpct : lastPct [0, 0] = PValue.nan := by
    norm_num [lastPct, PValue.pdiv, PValue.padd]
  have hmin : (L_min_float 5 [0, 0]).pisnan = true := by
    rw [L_min_float, hpct, ppow_nan (by norm_num), pmul_nan]
    rfl
  exact ⟨hmin, C4_nb07_collapse 5 50 [0, 0] hmin⟩

/-!
## §4.2 TrendSmoother — `CasesModel.smooth`

Source (notebook 08, `CasesModel.smooth`):
```
s = s[:self.last_date]
if s.values[0] == 0:
    last_zero_date = s[s == 0].index[-1]
    s = s.loc[last_zero_date:]
    s_daily = s.diff().dropna()
else:
    s_daily = s.diff().fillna(s.iloc[0])
if len(s_daily) < MIN_OBS:
    return s_daily.cumsum()
y = s_daily.values
frac = self.n_smooth / len(y)
y_pred = lowess(y, x, frac=frac, is_sorted=True, return_sorted=False)
s_pred = pd.Series(y_pred, index=s_daily.index).clip(0)
s_pred_cumulative = s_pred.cumsum()
if s_pred_cumulative[-1] == 0:
    return s_daily.cumsum()
last_actual = s.values[-1]
last_smoothed = s_pred_cumulative.values[-1]
s_pred_cumulative *= last_actual / last_smoothed
return s_pred_cumulative
```
The `lowess` call is external; its output `y_pred` is an explicit argument
`yPred` here, so the theorems hold for every possible smoother output.
-/

/-- `MIN_OBS = 15`: minimum observations needed to make a prediction. -/
def MIN_OBS : ℕ := 15

/-- First differences `s.diff().dropna()`: pairwise `s[i] - s[i-1]`. -/
def diffs : List ℚ → List ℚ
  | [] => []
  | [_] => []
  | x :: y :: rest => (y - x) :: diffs (y :: rest)

/-- `s.loc[last_zero_date:]`: the suffix of `s` starting at the position of
the last zero entry (used only when the first value is zero, so a zero
exists; on a repaired nondecreasing series this is the last leading zero). -/
def trimToLastZero (s : List ℚ) : List ℚ :=
  s.drop (s.length - 1 - s.reverse.findIdx (fun x => decide (x = 0)))

/-- The series the smoother actually works on: trimmed from the last zero
when the series starts at zero, otherwise unchanged. -/
def sTrim (s : List ℚ) : List ℚ :=
  if s.head? = some 0 then trimToLastZero s else s

/-- The daily deltas the smoother feeds to LOWESS: `diff().dropna()` after
trimming when the series starts at zero, otherwise `diff().fillna(s[0])`
(the first delta is the first value itself). -/
def sDaily (s : List ℚ) : List ℚ :=
  if s.head? = some 0 then diffs (trimToLastZero s)
  else
    match s with
    | [] => []
    | x :: _ => x :: diffs s

/-- `CasesModel.smooth`, with the external LOWESS output passed in as
`yPred`. -/
def smooth (yPred : List ℚ) (s : List ℚ) : List ℚ :=
  if (sDaily s).length < MIN_OBS then cumsum (sDaily s)
  else
    let sPredCum := cumsum (yPred.map (fun v => max v 0))
    if sPredCum.getLastD 0 = 0 then cumsum (sDaily s)
    else sPredCum.map (fun v => v * ((sTrim s).getLastD 0 / sPredCum.getLastD 0))

/-- `CasesModel.get_train`: the last `n_train` points (`iloc[-n_train:]`). -/
def get_train (n_train : ℕ) (smoothed : List ℚ) : List ℚ :=
  smoothed.drop (smoothed.length - n_train)

/-!
## §4.3 BoundsEstimator over exact arithmetic

`CasesModel.get_L_limits` / `CasesModel.get_bounds_p0` (notebook 08) over
`ℚ`, for the regime in which every quantity is finite (the second-to-last
smoothed value is nonzero; theorems carry that hypothesis explicitly
because `ℚ` division by zero is `0` in Lean rather than NaN — the NaN
behaviour is covered by the `PValue` embedding above).
```
def get_bounds_p0(self, s):
    L_min, L_max, L0 = self.get_L_limits(s)
    x0_min, x0_max = -50, 50
    k_min, k_max = 0.01, 0.5
    v_min, v_max = 0.01, 2
    s_min, s_max = 0, s[-1] + 0.01
    s0 = s_max / 2
    lower = L_min, x0_min, k_min, v_min, s_min
    upper = L_max, x0_max, k_max, v_max, s_max
    p0 = L0, 0, 0.1, 0.1, s0
```
-/

/-- `s[-1]` (0 for an empty list; the source would raise there). -/
def lastQ (s : List ℚ) : ℚ := s.getLastD 0

/-- `s[-2]` (0 when shorter than two entries). -/
def prevQ (s : List ℚ) : ℚ := s.dropLast.getLastD 0

/-- `CasesModel.get_L_limits` over `ℚ`:
`last_pct = pct_change[-1] + 1`, `L_min = last·pct^n1`,
`L_max = last·pct^n2 + 1`, `L0 = (L_max − L_min)/2 + L_min`. -/
def get_L_limits (n1 n2 : ℕ) (s : List ℚ) : ℚ × ℚ × ℚ :=
  let last_val := lastQ s
  let last_pct := (last_val - prevQ s) / prevQ s + 1
  let L_min := last_val * last_pct ^ n1
  let L_max := last_val * last_pct ^ n2 + 1
  (L_min, L_max, (L_max - L_min) / 2 + L_min)

/-- `CasesModel.get_bounds_p0`: `((lower, upper), p0)` as 5-entry lists
ordered `L, x0, k, v, s`. -/
def get_bounds_p0 (n1 n2 : ℕ) (s : List ℚ) : (List ℚ × List ℚ) × List ℚ :=
  let L := get_L_limits n1 n2 s
  (([L.1, -50, 1/100, 1/100, 0],
    [L.2.1, 50, 1/2, 2, lastQ s + 1/100]),
   [L.2.2, 0, 1/10, 1/10, (lastQ s + 1/100) / 2])

/-!
## §4.5 Forecaster, integer part

`CasesModel.run` / `get_pred_cumulative`:
```
pred_daily = self.get_pred_daily(n_train, params).round(0)
pred_cumulative = self.get_pred_cumulative(s, pred_daily)   # cumsum() + last_actual
```
The raw model deltas (floats from the fitted curve) enter as a list; they
are rounded, cumulative-summed and re-anchored on the last actual value.
-/

/-- `.round(0)` on the raw model deltas. -/
def round0_daily (raw : List ℚ) : List ℤ := raw.map roundHalfEven

/-- `pred_daily.cumsum() + last_actual_value`. -/
def pred_cumulative_of_daily (lastActual : ℤ) (daily : List ℤ) : List ℤ :=
  (cumsumZ daily).map (fun v => v + lastActual)

/-- The skip path of `CasesModel.run`: fewer than `MIN_OBS` training points
produce `n_pred` zero deltas, otherwise the fitted model's (already
rounded) deltas are used. -/
def run_area_pred_daily (n_train n_pred : ℕ) (fitted : List ℚ) : List ℚ :=
  if n_train < MIN_OBS then List.replicate n_pred 0 else fitted

/-- `get_pred_cumulative` over `ℚ` (before the final `astype('int')`). -/
def get_pred_cumulative (lastActual : ℚ) (pred_daily : List ℚ) : List ℚ :=
  (cumsum pred_daily).map (fun v => v + lastActual)

/-!
### Lemmas about the smoother
-/

theorem getLastD_congr {α : Type} {l : List α} (hne : l ≠ []) (d d' : α) :
    l.getLastD d = l.getLastD d' := by
  rw [List.getLastD_eq_getLast?, List.getLastD_eq_getLast?]
  cases h : l.getLast? with
  | none => exact absurd (List.getLast?_eq_none_iff.mp h) hne
  | some a => rfl

theorem getLastD_drop {α : Type} (d : α) :
    ∀ (s : List α) (n : ℕ), n < s.length → (s.drop n).getLastD d = s.getLastD d := by
  intro s
  induction s with
  | nil => intro n h; simp at h
  | cons x xs ih =>
      intro n h
      cases n with
      | zero => rfl
      | succ k =>
          have hk : k < xs.length := by
            simpa using Nat.lt_of_succ_lt_succ h
          have hne : xs ≠ [] := by
            intro hx; rw [hx] at hk; simp at hk
          rw [List.drop_succ_cons, ih k hk, List.getLastD_cons]
          exact getLastD_congr hne d x

theorem sDaily_nil : sDaily [] = [] := rfl

theorem sTrim_getLastD {s : List ℚ} (hs : s ≠ []) :
    (sTrim s).getLastD 0 = s.getLastD 0 := by
  unfold sTrim
  split_ifs with h
  · unfold trimToLastZero
    apply getLastD_drop
    have hlen : 1 ≤ s.length := by
      cases s with
      | nil => exact absurd rfl hs
      | cons a l => simp
    omega
  · rfl

theorem cumsumGo_length (acc : ℚ) (l : List ℚ) :
    (cumsumGo acc l).length = l.length := by
  induction l generalizing acc with
  | nil => rfl
  | cons x xs ih => simpa [cumsumGo] using ih (acc + x)

theorem cumsum_length (l : List ℚ) : (cumsum l).length = l.length :=
  cumsumGo_length 0 l

theorem cumsumGo_mem_ge (acc : ℚ) (l : List ℚ) (h : ∀ x ∈ l, 0 ≤ x) :
    ∀ y ∈ cumsumGo acc l, acc ≤ y := by
  induction l generalizing acc with
  | nil => intro y hy; simp [cumsumGo] at hy
  | cons x xs ih =>
      intro y hy
      have hx : 0 ≤ x := h x (List.mem_cons_self x xs)
      rcases List.mem_cons.mp hy with rfl | hy
      · linarith
      · have := ih (acc + x) (fun z hz => h z (List.mem_cons_of_mem x hz)) y hy
        linarith

theorem cumsumGo_chain (acc : ℚ) (l : List ℚ) (h : ∀ x ∈ l, 0 ≤ x) :
    List.Chain' (· ≤ ·) (cumsumGo acc l) := by
  induction l generalizing acc with
  | nil => simp [cumsumGo]
  | cons x xs ih =>
      rw [cumsumGo, List.chain'_cons']
      refine ⟨?_, ih (acc + x) (fun z hz => h z (List.mem_cons_of_mem x hz))⟩
      intro y hy
      exact cumsumGo_mem_ge (acc + x) xs
        (fun z hz => h z (List.mem_cons_of_mem x hz)) y (List.mem_of_mem_head? hy)

/-!
### C2 — the anchoring invariant
-/

/-- **C2 (confirmed)**: whenever the daily deltas number at least `MIN_OBS`
and the clipped-and-summed LOWESS output has a nonzero final value, the
smoothed cumulative series returned by `CasesModel.smooth` ends exactly at
the input series' last actual cumulative value: the rescaling by
`last_actual / last_smoothed` makes the anchoring exact. -/
theorem C2_smooth_anchored (s yPred : List ℚ)
    (hmin : ¬ (sDaily s).length < MIN_OBS)
    (hnz : (cumsum (yPred.map (fun v => max v 0))).getLastD 0 ≠ 0) :
    (smooth yPred s).getLastD 0 = s.getLastD 0 := by
  have hs : s ≠ [] := by
    intro h
    rw [h, sDaily_nil] at hmin
    exact hmin (by norm_num [MIN_OBS])
  set C := cumsum (yPred.map (fun v => max v 0)) with hC
  have hCne : C ≠ [] := by
    intro h
    exact hnz (by rw [h]; rfl)
  obtain ⟨v, hv⟩ : ∃ v, C.getLast? = some v := by
    cases h : C.getLast? with
    | none => exact absurd (List.getLast?_eq_none_iff.mp h) hCne
    | some a => exact ⟨a, rfl⟩
  have hvD : C.getLastD 0 = v := getLastD_of_getLast? 0 hv
  have hvne : v ≠ 0 := by rw [← hvD]; exact hnz
  unfold smooth
  rw [if_neg hmin]
  simp only [← hC]
  rw [if_neg hnz]
  have hmap : (C.map (fun w => w * ((sTrim s).getLastD 0 / C.getLastD 0))).getLast? =
      some (v * ((sTrim s).getLastD 0 / C.getLastD 0)) := by
    rw [getLast?_map, hv]; rfl
  rw [getLastD_of_getLast? 0 hmap, hvD, mul_comm, div_mul_cancel₀ _ hvne]
  exact sTrim_getLastD hs

/-- **C2 (witness)**: a 15-point constant series with a constant LOWESS
output; the smoothed series ends exactly at the actual last value. -/
theorem C2_witness :
    ¬ (sDaily [1, 1, 1, 1, 1, 1, 1, 1, 1, 1, 1, 1, 1, 1, 1]).length < MIN_OBS ∧
    (cumsum ((List.replicate 15 (1 : ℚ)).map (fun v => max v 0))).getLastD 0 ≠ 0 ∧
    (smooth (List.replicate 15 (1 : ℚ))
        [1, 1, 1, 1, 1, 1, 1, 1, 1, 1, 1, 1, 1, 1, 1]).getLastD 0 =
      ([1, 1, 1, 1, 1, 1, 1, 1, 1, 1, 1, 1, 1, 1, 1] : List ℚ).getLastD 0 := by
  have h1 : ¬ (sDaily [1, 1, 1, 1, 1, 1, 1, 1, 1, 1, 1, 1, 1, 1, 1]).length < MIN_OBS := by
    norm_num [sDaily, diffs, MIN_OBS]
  have h2 : (cumsum ((List.replicate 15 (1 : ℚ)).map (fun v => max v 0))).getLastD 0 ≠ 0 := by
    norm_num [cumsum, cumsumGo, List.replicate, List.getLastD]
  exact ⟨h1, h2, C2_smooth_anchored _ _ h1 h2⟩

/-!
### C10 — monotonicity of the LOWESS-path smoother output
-/

/-- **C10 (confirmed)**: on the LOWESS path (enough deltas, nonzero smoothed
total), provided the series' last actual value is nonnegative, the smoothed
cumulative series is monotonically non-decreasing: deltas are clipped at
zero before summation and the anchoring scale factor is nonnegative. -/
theorem C10_smooth_monotone (s yPred : List ℚ)
    (hmin : ¬ (sDaily s).length < MIN_OBS)
    (hnz : (cumsum (yPred.map (fun v => max v 0))).getLastD 0 ≠ 0)
    (hlast : 0 ≤ s.getLastD 0) :
    List.Chain' (· ≤ ·) (smooth yPred s) := by
  have hs : s ≠ [] := by
    intro h
    rw [h, sDaily_nil] at hmin
    exact hmin (by norm_num [MIN_OBS])
  set C := cumsum (yPred.map (fun v => max v 0)) with hC
  have hnonneg : ∀ x ∈ yPred.map (fun v => max v 0), 0 ≤ x := by
    intro x hx
    rw [List.mem_map] at hx
    obtain ⟨w, _, rfl⟩ := hx
    exact le_max_right w 0
  have hchain : List.Chain' (· ≤ ·) C := cumsumGo_chain 0 _ hnonneg
  have hmemge : ∀ y ∈ C, 0 ≤ y := by
    intro y hy
    simpa using cumsumGo_mem_ge 0 _ hnonneg y hy
  have hCne : C ≠ [] := by
    intro h
    exact hnz (by rw [h]; rfl)
  obtain ⟨v, hv⟩ : ∃ v, C.getLast? = some v := by
    cases h : C.getLast? with
    | none => exact absurd (List.getLast?_eq_none_iff.mp h) hCne
    | some a => exact ⟨a, rfl⟩
  have hvD : C.getLastD 0 = v := getLastD_of_getLast? 0 hv
  have hvpos : 0 < C.getLastD 0 := by
    rw [hvD]
    exact lt_of_le_of_ne (hmemge v (List.mem_of_mem_getLast? hv))
      (fun h => hnz (by rw [hvD, ← h]))
  have hscale : 0 ≤ (sTrim s).getLastD 0 / C.getLastD 0 := by
    apply div_nonneg ?_ hvpos.le
    rw [sTrim_getLastD hs]
    exact hlast
  unfold smooth
  rw [if_neg hmin]
  simp only [← hC]
  rw [if_neg hnz, List.chain'_map]
  exact hchain.imp (fun a b hab => mul_le_mul_of_nonneg_right hab hscale)

/-- **C10 (witness)**: the monotonicity theorem applied to a concrete
15-point series and LOWESS output. -/
theorem C10_witness :
    List.Chain' (· ≤ ·)
      (smooth (List.replicate 15 (1 : ℚ)) [1, 1, 1, 1, 1, 1, 1, 1, 1, 1, 1, 1, 1, 1, 1]) := by
  refine C10_smooth_monotone _ _ ?_ ?_ ?_
  · norm_num [sDaily, diffs, MIN_OBS]
  · norm_num [cumsum, cumsumGo, List.replicate, List.getLastD]
  · norm_num [List.getLastD]

/-!
### C6 — insufficient-history behaviour
-/

/-- **C6 (confirmed)**: for a series with fewer than `MIN_OBS = 15` daily
deltas, the smoother returns the plain cumulative sum of the raw deltas (no
LOWESS, no rescaling); the resulting training window is necessarily shorter
than `MIN_OBS`, so `CasesModel.run` takes the skip path, producing exactly
`n_pred` zero daily deltas, whose cumulative reconstruction is flat at the
last actual value. -/
theorem C6_degenerate_area (s yPred : List ℚ) (n_train_cfg n_pred : ℕ)
    (lastActual : ℚ) (fitted : List ℚ)
    (h : (sDaily s).length < MIN_OBS) :
    smooth yPred s = cumsum (sDaily s) ∧
    run_area_pred_daily (get_train n_train_cfg (smooth yPred s)).length n_pred fitted =
      List.replicate n_pred 0 ∧
    get_pred_cumulative lastActual (List.replicate n_pred 0) =
      List.replicate n_pred lastActual := by
  have hsm : smooth yPred s = cumsum (sDaily s) := by
    unfold smooth
    rw [if_pos h]
  refine ⟨hsm, ?_, ?_⟩
  · have hlen : (get_train n_train_cfg (smooth yPred s)).length < MIN_OBS := by
      unfold get_train
      rw [List.length_drop, hsm, cumsum_length]
      omega
    unfold run_area_pred_daily
    rw [if_pos hlen]
  · have hz : ∀ n : ℕ, cumsumGo 0 (List.replicate n (0 : ℚ)) = List.replicate n 0 := by
      intro n
      induction n with
      | zero => rfl
      | succ k ih => simpa [List.replicate_succ, cumsumGo] using ih
    unfold get_pred_cumulative cumsum
    rw [hz, List.map_replicate]
    norm_num

/-- **C6 (witness)**: the degenerate behaviour on the one-point series
`[5]` with forecast horizon 3. -/
theorem C6_witness :
    (sDaily [(5 : ℚ)]).length < MIN_OBS ∧
    smooth [] [(5 : ℚ)] = cumsum (sDaily [(5 : ℚ)]) ∧
    run_area_pred_daily (get_train 60 (smooth [] [(5 : ℚ)])).length 3 [] =
      List.replicate 3 0 ∧
    get_pred_cumulative 5 (List.replicate 3 0) = List.replicate 3 5 := by
  have h : (sDaily [(5 : ℚ)]).length < MIN_OBS := by
    norm_num [sDaily, diffs, MIN_OBS]
  obtain ⟨h1, h2, h3⟩ := C6_degenerate_area [(5 : ℚ)] [] 60 3 5 [] h
  exact ⟨h, h1, h2, h3⟩

/-!
### C8 — the initial guess lies within its own bounds
-/

theorem prevQ_le_lastQ : ∀ (s : List ℚ), 2 ≤ s.length →
    List.Chain' (· ≤ ·) s → prevQ s ≤ lastQ s := by
  intro s
  induction s with
  | nil => intro h; simp at h
  | cons x xs ih =>
      intro hlen hchain
      cases xs with
      | nil => simp at hlen
      | cons y ys =>
          cases ys with
          | nil =>
              have hxy : x ≤ y := List.rel_of_chain_cons hchain
              simp [prevQ, lastQ, List.dropLast, List.getLastD]
              exact hxy
          | cons z zs =>
              have htail : List.Chain' (· ≤ ·) (y :: z :: zs) :=
                (List.chain'_cons.mp hchain).2
              have hrec := ih (by simp) htail
              have hlast : lastQ (x :: y :: z :: zs) = lastQ (y :: z :: zs) := by
                unfold lastQ
                rw [List.getLastD_cons]
                exact getLastD_congr (l := y :: z :: zs) (by simp) x 0
              have hprev : prevQ (x :: y :: z :: zs) = prevQ (y :: z :: zs) := by
                unfold prevQ
                rw [List.dropLast_cons₂, List.getLastD_cons]
                exact getLastD_congr (l := (y :: z :: zs).dropLast)
                  (by simp [List.dropLast_cons₂]) x 0
              rw [hlast, hprev]
              exact hrec

/-- **C8 (confirmed)**: on a nondecreasing smoothed training series with at
least two points whose second-to-last value is positive (the regime in
which the pipeline's growth ratio is well defined and finite), every
initial guess produced by `CasesModel.get_bounds_p0` lies within its own
bounds: componentwise `lower ≤ p0` and `p0 ≤ upper`. -/
theorem C8_p0_within_bounds (n1 n2 : ℕ) (s : List ℚ) (hn : n1 ≤ n2)
    (hlen : 2 ≤ s.length) (hmono : List.Chain' (· ≤ ·) s) (hprev : 0 < prevQ s) :
    List.Forall₂ (· ≤ ·) (get_bounds_p0 n1 n2 s).1.1 (get_bounds_p0 n1 n2 s).2 ∧
    List.Forall₂ (· ≤ ·) (get_bounds_p0 n1 n2 s).2 (get_bounds_p0 n1 n2 s).1.2 := by
  have hpl : prevQ s ≤ lastQ s := prevQ_le_lastQ s hlen hmono
  have hlast : 0 < lastQ s := lt_of_lt_of_le hprev hpl
  set g : ℚ := (lastQ s - prevQ s) / prevQ s + 1 with hg
  have hg1 : 1 ≤ g := by
    have : 0 ≤ (lastQ s - prevQ s) / prevQ s := div_nonneg (by linarith) hprev.le
    rw [hg]
    linarith
  have hpow : g ^ n1 ≤ g ^ n2 := pow_le_pow_right₀ hg1 hn
  have hp1 : 0 < g ^ n1 := pow_pos (by linarith) n1
  have hLminmax : lastQ s * g ^ n1 ≤ lastQ s * g ^ n2 + 1 := by nlinarith
  have hbounds : get_bounds_p0 n1 n2 s =
      (([lastQ s * g ^ n1, -50, 1/100, 1/100, 0],
        [lastQ s * g ^ n2 + 1, 50, 1/2, 2, lastQ s + 1/100]),
       [(lastQ s * g ^ n2 + 1 - lastQ s * g ^ n1) / 2 + lastQ s * g ^ n1,
        0, 1/10, 1/10, (lastQ s + 1/100) / 2]) := rfl
  rw [hbounds]
  constructor
  · refine List.Forall₂.cons (by linarith) (List.Forall₂.cons (by norm_num)
      (List.Forall₂.cons (by norm_num) (List.Forall₂.cons (by norm_num)
      (List.Forall₂.cons (by linarith) List.Forall₂.nil))))
  · refine List.Forall₂.cons (by linarith) (List.Forall₂.cons (by norm_num)
      (List.Forall₂.cons (by norm_num) (List.Forall₂.cons (by norm_num)
      (List.Forall₂.cons (by linarith) List.Forall₂.nil))))

/-- **C8 (witness)**: the bounds-validity theorem applied to the concrete
training series `[1, 2]` with the pipeline's horizons `n1 = 5`, `n2 = 50`. -/
theorem C8_witness :
    2 ≤ ([1, 2] : List ℚ).length ∧ 0 < prevQ [1, 2] ∧
    List.Forall₂ (· ≤ ·) (get_bounds_p0 5 50 [1, 2]).1.1 (get_bounds_p0 5 50 [1, 2]).2 ∧
    List.Forall₂ (· ≤ ·) (get_bounds_p0 5 50 [1, 2]).2 (get_bounds_p0 5 50 [1, 2]).1.2 := by
  have h1 : 2 ≤ ([1, 2] : List ℚ).length := by norm_num
  have h2 : List.Chain' (· ≤ ·) ([1, 2] : List ℚ) := by
    norm_num [List.chain'_cons]
  have h3 : 0 < prevQ [1, 2] := by norm_num [prevQ, List.dropLast, List.getLastD]
  obtain ⟨ha, hb⟩ := C8_p0_within_bounds 5 50 [1, 2] (by norm_num) h1 h2 h3
  exact ⟨h1, h3, ha, hb⟩

/-!
### C7 — literal forecast-reconstruction arithmetic
-/

/-- **C7 (confirmed)**: with last actual cumulative value 1000 and raw model
deltas `[12.4, 8.9, 15.2]`, rounding each delta to the nearest integer,
cumulative-summing and adding the last actual value yields the cumulative
forecast `[1012, 1021, 1036]`. -/
theorem C7_forecast_literal :
    pred_cumulative_of_daily 1000 (round0_daily [124/10, 89/10, 152/10]) =
      [1012, 1021, 1036] := by
  have h1 : roundHalfEven (124/10) = 12 := by
    norm_num [roundHalfEven]
  have h2 : roundHalfEven (89/10) = 9 := by
    norm_num [roundHalfEven]
  have h3 : roundHalfEven (152/10) = 15 := by
    norm_num [roundHalfEven]
  unfold pred_cumulative_of_daily round0_daily
  rw [List.map_cons, List.map_cons, List.map_cons, List.map_nil, h1, h2, h3]
  norm_num [cumsumZ, cumsumZGo]

/-!
## §4.4/§4.5 — the generalized logistic model and the forecaster, over `ℝ`

Source (notebook 08):
```
def general_logistic_shift(x, L, x0, k, v, s):
    return (L - s) / ((1 + np.exp(-k * (x - x0))) ** (1 / v)) + s

def get_pred_daily(self, n_train, params):
    x_pred = np.arange(n_train - 1, n_train + self.n_pred)
    y_pred = self.model(x_pred, *params)
    y_pred_daily = np.diff(y_pred)
    return pd.Series(y_pred_daily, index=self.pred_index)
```
The transcendental arithmetic (exp, real power) is embedded over `ℝ`.
-/

/-- The 5-parameter generalized logistic model with vertical and horizontal
shift: `f(x) = (L − s) / (1 + e^(−k·(x − x0)))^(1/v) + s`. -/
noncomputable def general_logistic_shift (x L x0 k v s : ℝ) : ℝ :=
  (L - s) / (1 + Real.exp (-k * (x - x0))) ^ ((1 : ℝ) / v) + s

/-- numpy round-half-to-even on a real argument. -/
noncomputable def roundHalfEvenR (x : ℝ) : ℤ :=
  if x - ⌊x⌋ < 1/2 then ⌊x⌋
  else if 1/2 < x - ⌊x⌋ then ⌊x⌋ + 1
  else if Even ⌊x⌋ then ⌊x⌋ else ⌊x⌋ + 1

/-- `get_pred_daily`: the model evaluated on `arange(n_train−1, n_train+n_pred)`
and first-differenced; entry `i` is `f(n_train+i) − f(n_train+i−1)`. -/
noncomputable def get_pred_daily (n_train n_pred : ℕ) (L x0 k v s : ℝ) : List ℝ :=
  (List.range n_pred).map (fun (i : ℕ) =>
    general_logistic_shift ((n_train : ℝ) + (i : ℝ)) L x0 k v s -
    general_logistic_shift ((n_train : ℝ) + (i : ℝ) - 1) L x0 k v s)

/-- `get_pred_daily(...).round(0)`: each raw delta rounded to the nearest
integer (kept as a real for the subsequent cumulative sum). -/
noncomputable def pred_daily_rounded (n_train n_pred : ℕ) (L x0 k v s : ℝ) : List ℝ :=
  (get_pred_daily n_train n_pred L x0 k v s).map (fun y => ((roundHalfEvenR y : ℤ) : ℝ))

/-- Running sums over `ℝ`. -/
noncomputable def cumsumRGo (acc : ℝ) : List ℝ → List ℝ
  | [] => []
  | x :: xs => (acc + x) :: cumsumRGo (acc + x) xs

/-- `get_pred_cumulative`: `pred_daily.cumsum() + last_actual_value`. -/
noncomputable def get_pred_cumulativeR (lastActual : ℝ) (daily : List ℝ) : List ℝ :=
  (cumsumRGo 0 daily).map (fun v => v + lastActual)

/-!
### C5 — first forecast day never below the last actual value
-/

theorem roundHalfEvenR_nonneg {x : ℝ} (h : -(1/2) < x) : 0 ≤ roundHalfEvenR x := by
  have hfl : (-1 : ℤ) ≤ ⌊x⌋ := by
    apply Int.le_floor.mpr
    push_cast
    linarith
  have hfx : (⌊x⌋ : ℝ) ≤ x := Int.floor_le x
  unfold roundHalfEvenR
  split_ifs with h1 h2 h3
  · by_contra hneg
    push_neg at hneg
    have hm1 : ⌊x⌋ = -1 := by omega
    rw [hm1] at h1
    push_cast at h1
    linarith
  · omega
  · by_contra hneg
    push_neg at hneg
    have hm1 : ⌊x⌋ = -1 := by omega
    push_neg at h2
    rw [hm1] at h2
    push_cast at h2
    linarith
  · omega

/-- The one-step increment of the generalized logistic model is bounded
below by `−(1/100)` whenever `L − s ≥ −(1/100)`, because the normalized
sigmoid `1/(1 + e^{−k(x−x0)})^{1/v}` is increasing in `x` with values in
`(0, 1)` for `k, v > 0`. -/
theorem general_logistic_shift_delta_lower
    {L x0 k v s : ℝ} (hk : 0 < k) (hv : 0 < v) {x1 x2 : ℝ} (hx : x1 < x2)
    (hLs : -(1/100) ≤ L - s) :
    -(1/100) ≤ general_logistic_shift x2 L x0 k v s -
      general_logistic_shift x1 L x0 k v s := by
  have he2pos : 0 < Real.exp (-k * (x2 - x0)) := Real.exp_pos _
  have helt : Real.exp (-k * (x2 - x0)) < Real.exp (-k * (x1 - x0)) := by
    apply Real.exp_lt_exp.mpr
    nlinarith
  have hu2 : 1 < 1 + Real.exp (-k * (x2 - x0)) := by linarith
  have hu1 : 1 < 1 + Real.exp (-k * (x1 - x0)) := by linarith
  have hvpos : 0 < (1 : ℝ) / v := by positivity
  unfold general_logistic_shift
  generalize hB1 : (1 + Real.exp (-k * (x1 - x0))) ^ ((1 : ℝ) / v) = B1
  generalize hB2 : (1 + Real.exp (-k * (x2 - x0))) ^ ((1 : ℝ) / v) = B2
  have hB2gt1 : 1 < B2 := by
    rw [← hB2]
    exact (Real.one_lt_rpow_iff_of_pos (by linarith)).mpr (Or.inl ⟨hu2, hvpos⟩)
  have hBlt : B2 < B1 := by
    rw [← hB1, ← hB2]
    exact Real.rpow_lt_rpow (by linarith) (by linarith) hvpos
  have hB2pos : 0 < B2 := by linarith
  have hB1pos : 0 < B1 := by linarith
  have hD1 : 1 / B1 < 1 / B2 := one_div_lt_one_div_of_lt hB2pos hBlt
  have hD2 : 1 / B2 < 1 := by
    rw [div_lt_one hB2pos]
    exact hB2gt1
  have hD3 : 0 < 1 / B1 := by positivity
  have hdelta : (L - s) / B2 + s - ((L - s) / B1 + s) =
      (L - s) * (1 / B2 - 1 / B1) := by ring
  rw [hdelta]
  rcases le_or_lt 0 (L - s) with hpos | hneg
  · nlinarith
  · nlinarith

/-- Over `ℚ`: with a nondecreasing training series whose second-to-last
value is positive, the lower `L` bound is at least the last training value
(growth ratio at least 1). -/
theorem L_min_ge_lastQ (n1 n2 : ℕ) (s : List ℚ) (hlen : 2 ≤ s.length)
    (hmono : List.Chain' (· ≤ ·) s) (hprev : 0 < prevQ s) :
    lastQ s ≤ (get_L_limits n1 n2 s).1 := by
  have hpl := prevQ_le_lastQ s hlen hmono
  have hlast : 0 < lastQ s := lt_of_lt_of_le hprev hpl
  have hg1 : 1 ≤ (lastQ s - prevQ s) / prevQ s + 1 := by
    have : 0 ≤ (lastQ s - prevQ s) / prevQ s := div_nonneg (by linarith) hprev.le
    linarith
  have hpow : 1 ≤ ((lastQ s - prevQ s) / prevQ s + 1) ^ n1 := one_le_pow₀ hg1
  show lastQ s ≤ lastQ s * ((lastQ s - prevQ s) / prevQ s + 1) ^ n1
  nlinarith

/-- **C5 (confirmed)**: for every nondecreasing training series (with a
positive second-to-last value, i.e. a well-defined finite growth ratio) and
every ParameterSet within the box bounds produced by `get_bounds_p0`
(`L ≥ L_min`, `k ≥ 0.01`, `v ≥ 0.01`, `s ≤ last + 0.01`), the first
forecast day's cumulative value — last actual value plus the rounded first
predicted delta — is at least the last actual cumulative value: the raw
first delta is bounded below by `−0.01`, so its rounding is nonnegative. -/
theorem C5_first_forecast_ge_last_actual
    (n1 n2 n_train n_pred : ℕ) (train : List ℚ) (L x0 k v sv : ℝ)
    (hpred : 1 ≤ n_pred)
    (hlen : 2 ≤ train.length) (hmono : List.Chain' (· ≤ ·) train)
    (hprev : 0 < prevQ train)
    (hL : (((get_L_limits n1 n2 train).1 : ℚ) : ℝ) ≤ L)
    (hk : (1/100 : ℝ) ≤ k) (hv : (1/100 : ℝ) ≤ v)
    (hs : sv ≤ ((lastQ train : ℚ) : ℝ) + 1/100) :
    ((lastQ train : ℚ) : ℝ) ≤
      (get_pred_cumulativeR ((lastQ train : ℚ) : ℝ)
        (pred_daily_rounded n_train n_pred L x0 k v sv)).headD 0 := by
  have hLq : lastQ train ≤ (get_L_limits n1 n2 train).1 :=
    L_min_ge_lastQ n1 n2 train hlen hmono hprev
  have hLlast : ((lastQ train : ℚ) : ℝ) ≤ L :=
    le_trans (by exact_mod_cast hLq) hL
  have hLs : -(1/100) ≤ L - sv := by linarith
  have hdelta0 : -(1/100 : ℝ) ≤
      general_logistic_shift ((n_train : ℝ) + ((0 : ℕ) : ℝ)) L x0 k v sv -
      general_logistic_shift ((n_train : ℝ) + ((0 : ℕ) : ℝ) - 1) L x0 k v sv := by
    apply general_logistic_shift_delta_lower (by linarith) (by linarith) (by linarith) hLs
  have hround : 0 ≤ roundHalfEvenR
      (general_logistic_shift ((n_train : ℝ) + ((0 : ℕ) : ℝ)) L x0 k v sv -
       general_logistic_shift ((n_train : ℝ) + ((0 : ℕ) : ℝ) - 1) L x0 k v sv) :=
    roundHalfEvenR_nonneg (by linarith)
  obtain ⟨m, rfl⟩ : ∃ m, n_pred = m + 1 := ⟨n_pred - 1, by omega⟩
  simp only [pred_daily_rounded, get_pred_daily, get_pred_cumulativeR,
    List.range_succ_eq_map, List.map_cons, cumsumRGo, List.headD_cons]
  have : (0 : ℝ) ≤ ((roundHalfEvenR
      (general_logistic_shift ((n_train : ℝ) + ((0 : ℕ) : ℝ)) L x0 k v sv -
       general_logistic_shift ((n_train : ℝ) + ((0 : ℕ) : ℝ) - 1) L x0 k v sv) : ℤ) : ℝ) := by
    exact_mod_cast hround
  push_cast at this ⊢
  linarith

/-- **C5 (witness)**: the first-forecast-day theorem applied to the
training series `[1, 2]` with parameters `L = 64, x0 = 0, k = v = 0.1,
s = 0` (inside the bounds produced for `n1 = 5, n2 = 50`). -/
theorem C5_witness :
    lastQ [1, 2] = 2 ∧
    ((lastQ [1, 2] : ℚ) : ℝ) ≤
      (get_pred_cumulativeR ((lastQ [1, 2] : ℚ) : ℝ)
        (pred_daily_rounded 2 1 64 0 (1/10) (1/10) 0)).headD 0 := by
  refine ⟨rfl, ?_⟩
  apply C5_first_forecast_ge_last_actual 5 50 2 1 [1, 2] 64 0 (1/10) (1/10) 0
  · norm_num
  · norm_num
  · norm_num [List.chain'_cons]
  · norm_num [prevQ, List.dropLast, List.getLastD]
  · have : (get_L_limits 5 50 [1, 2]).1 = 64 := by
      norm_num [get_L_limits, lastQ, prevQ, List.dropLast, List.getLastD]
    rw [this]
    norm_num
  · norm_num
  · norm_num
  · norm_num [lastQ, List.getLastD]

/-!
## §4.7 Orchestration — `CasesModel.run` with explicit state

`CasesModel.run` first calls `init_dictionaries`, resetting every result
dictionary, and then fills them area by area from `self.data` and the
configuration alone.  The mutable object state is made explicit as a
structure; the deterministic external numeric collaborators (`lowess`,
scipy's `least_squares`) enter as explicit function arguments, applied
identically on every run.
-/

/-- The mutable state of a `CasesModel` instance (one group): input data
and configuration, plus the result dictionaries `run` fills. -/
structure CMState where
  data : List (ℕ × List ℚ)
  n_train : ℕ
  n_pred : ℕ
  L_n_min : ℕ
  L_n_max : ℕ
  smoothed : List (ℕ × List ℚ)
  pred_daily : List (ℕ × List ℤ)
  pred_cumulative : List (ℕ × List ℝ)

/-- `init_dictionaries`: executed first in `run`; resets every result
dictionary. -/
def init_dictionaries (st : CMState) : CMState :=
  { st with smoothed := [], pred_daily := [], pred_cumulative := [] }

/-- The per-area body of the `run` loop: smooth, take the training window,
skip (all-zero forecast) when it is shorter than `MIN_OBS`, otherwise fit
via the solver and forecast from the fitted parameters. -/
noncomputable def run_area (lowess : List ℚ → List ℚ)
    (solver : List ℚ → ((List ℚ × List ℚ) × List ℚ) → ℝ × ℝ × ℝ × ℝ × ℝ)
    (n_train n_pred L_n_min L_n_max : ℕ) (s : List ℚ) :
    List ℚ × List ℤ × List ℝ :=
  let smoothed := smooth (lowess (sDaily s)) s
  let train := get_train n_train smoothed
  if train.length < MIN_OBS then
    (smoothed, List.replicate n_pred 0,
      get_pred_cumulativeR ((s.getLastD 0 : ℚ) : ℝ) (List.replicate n_pred 0))
  else
    let P := solver train (get_bounds_p0 L_n_min L_n_max train)
    (smoothed,
      (get_pred_daily train.length n_pred P.1 P.2.1 P.2.2.1 P.2.2.2.1 P.2.2.2.2).map
        roundHalfEvenR,
      get_pred_cumulativeR ((s.getLastD 0 : ℚ) : ℝ)
        (pred_daily_rounded train.length n_pred P.1 P.2.1 P.2.2.1 P.2.2.2.1 P.2.2.2.2))

/-- `CasesModel.run`: reset the result dictionaries, then fill each from
the data and configuration only. -/
noncomputable def CasesModel_run (lowess : List ℚ → List ℚ)
    (solver : List ℚ → ((List ℚ × List ℚ) × List ℚ) → ℝ × ℝ × ℝ × ℝ × ℝ)
    (st : CMState) : CMState :=
  let st1 := init_dictionaries st
  { st1 with
    smoothed := st1.data.map (fun p =>
      (p.1, (run_area lowess solver st1.n_train st1.n_pred st1.L_n_min st1.L_n_max p.2).1)),
    pred_daily := st1.data.map (fun p =>
      (p.1, (run_area lowess solver st1.n_train st1.n_pred st1.L_n_min st1.L_n_max p.2).2.1)),
    pred_cumulative := st1.data.map (fun p =>
      (p.1, (run_area lowess solver st1.n_train st1.n_pred st1.L_n_min st1.L_n_max p.2).2.2)) }

/-!
### C9 — determinism of the pipeline
-/

/-- **C9 (confirmed)**: running the pipeline on two states with identical
input data and identical configuration yields identical output tables,
regardless of any leftover result state (because `init_dictionaries` resets
it); in particular running the pipeline twice yields identical outputs.
The source has no randomness: `lowess` and the least-squares solver are
deterministic functions, applied identically in both runs. -/
theorem C9_run_deterministic (lowess : List ℚ → List ℚ)
    (solver : List ℚ → ((List ℚ × List ℚ) × List ℚ) → ℝ × ℝ × ℝ × ℝ × ℝ)
    (st₁ st₂ : CMState)
    (hdata : st₁.data = st₂.data)
    (htrain : st₁.n_train = st₂.n_train) (hpred : st₁.n_pred = st₂.n_pred)
    (hmin : st₁.L_n_min = st₂.L_n_min) (hmax : st₁.L_n_max = st₂.L_n_max) :
    (CasesModel_run lowess solver st₁).smoothed =
      (CasesModel_run lowess solver st₂).smoothed ∧
    (CasesModel_run lowess solver st₁).pred_daily =
      (CasesModel_run lowess solver st₂).pred_daily ∧
    (CasesModel_run lowess solver st₁).pred_cumulative =
      (CasesModel_run lowess solver st₂).pred_cumulative ∧
    (CasesModel_run lowess solver (CasesModel_run lowess solver st₁)).smoothed =
      (CasesModel_run lowess solver st₁).smoothed ∧
    (CasesModel_run lowess solver (CasesModel_run lowess solver st₁)).pred_daily =
      (CasesModel_run lowess solver st₁).pred_daily ∧
    (CasesModel_run lowess solver (CasesModel_run lowess solver st₁)).pred_cumulative =
      (CasesModel_run lowess solver st₁).pred_cumulative := by
  simp [CasesModel_run, init_dictionaries, hdata, htrain, hpred, hmin, hmax]

/-- **C9 (witness)**: the determinism theorem applied to a clean state and
the same state polluted with leftover results. -/
theorem C9_witness :
    (CasesModel_run id (fun _ _ => (1, 0, 1, 1, 0))
        { data := [(0, [1, 2])], n_train := 60, n_pred := 3, L_n_min := 5, L_n_max := 50,
          smoothed := [(7, [9])], pred_daily := [(7, [9])],
          pred_cumulative := [(7, [9])] }).smoothed =
      (CasesModel_run id (fun _ _ => (1, 0, 1, 1, 0))
        { data := [(0, [1, 2])], n_train := 60, n_pred := 3, L_n_min := 5, L_n_max := 50,
          smoothed := [], pred_daily := [], pred_cumulative := [] }).smoothed :=
  (C9_run_deterministic id (fun _ _ => (1, 0, 1, 1, 0)) _ _ rfl rfl rfl rfl rfl).1
